import Mathlib

/-!
Shallow embedding of the catalog consistency / hierarchy engine of the
`ecommerce-product-website` repository (Node/Express/Mongoose), together
with theorems settling the frozen claims about it.

Conventions of the embedding:
* Mongo `ObjectId`s are modelled as `Nat`; the store guarantees `_id`
  uniqueness, which appears as explicit `Nodup` hypotheses where a proof
  needs it.
* JS numbers are modelled as `Int` (stock, quantities, page/limit) or `Rat`
  (ratings, whose aggregate `$avg` is a mean); floating-point rounding is
  outside the embedding.
* A Mongoose collection is a `List` of records; `findByIdAndUpdate` is a
  `map` that rewrites the records whose `_id` matches (with unique ids this
  rewrites at most one record, exactly as the store does).
* Handlers that can answer with an HTTP error are embedded as result types
  whose constructors carry the resulting collection state, so that
  "the state is unmutated" is expressible.
-/

/-- A review document, fields from `src/server/src/models/Review.js`
(the fields the claims mention; `title`, `comment`, vote counters are
irrelevant to every claim and omitted). -/
structure Review where
  id : Nat
  product : Nat
  user : Nat
  rating : Rat
  deriving Repr, DecidableEq

/-- A product document, fields from the product schema in
`src/server/src/models` (only the fields the claims touch). -/
structure Product where
  id : Nat
  category : Nat
  rating : Rat
  numReviews : Nat
  stock : Int
  isActive : Bool
  deriving Repr, DecidableEq

/-- A category document, fields from the category schema / the projection
used by `getCategoryTree` in `src/server/src/controllers/categoryController.js`. -/
structure Cat where
  id : Nat
  parent : Option Nat
  name : String
  slug : String
  description : String
  image : String
  isActive : Bool
  deriving Repr, DecidableEq

/-- The document store as the aggregator sees it: the product and review
collections. -/
structure DB where
  products : List Product
  reviews : List Review
  deriving Repr, DecidableEq

/-- The `$avg` of the `$group` stage of `calculateAverageRating`: the
arithmetic mean of the ratings of a list of reviews, as an exact rational. -/
def meanRating (rs : List Review) : Rat :=
  ((rs.map (fun r => r.rating)).sum) / ((rs.length : Rat))

/-- `reviewSchema.statics.calculateAverageRating` from
`src/server/src/models/Review.js` lines 61–86: `$match` the reviews of
`productId`, `$group` into `$avg`/`$sum 1`, then `findByIdAndUpdate` the
product with the pair, or with `rating: 0, numReviews: 0` when no review
matched.  `findByIdAndUpdate` on an id with no matching product resolves
to `null` without error, i.e. the `map` leaves every record unchanged. -/
def calculateAverageRating (productId : Nat) (db : DB) : DB :=
  if (db.reviews.filter (fun r => r.product == productId)).length > 0 then
    { db with products := db.products.map (fun p =>
        if p.id == productId then
          { p with rating := meanRating (db.reviews.filter (fun r => r.product == productId)),
                   numReviews := (db.reviews.filter (fun r => r.product == productId)).length }
        else p) }
  else
    { db with products := db.products.map (fun p =>
        if p.id == productId then
          { p with rating := 0, numReviews := 0 }
        else p) }

/-- One product's aggregate clause: its stored `rating` is the mean of the
ratings of the reviews referencing it (in `Rat`, `0 / 0 = 0`, which
coincides with the `0` the code writes for an empty review set) and its
`numReviews` is their number. -/
def invAt (reviews : List Review) (p : Product) : Prop :=
  p.rating = meanRating (reviews.filter (fun r => r.product == p.id))
  ∧ p.numReviews = (reviews.filter (fun r => r.product == p.id)).length

/-- The store-wide aggregate invariant of spec §3/§8: every product's
cached aggregate agrees with its review set. -/
def ratingInvariant (db : DB) : Prop :=
  ∀ p ∈ db.products, invAt db.reviews p

/-- Modelled from the spec: the review controller
(`src/server/src/controllers/reviewController.js`) is not present in the
sources, only its routes; per spec §4.1 each review mutation triggers the
(in-source) `post('save')`/`post('remove')` hooks of `Review.js`, which call
`calculateAverageRating` on the review's product.  A create appends the new
review and recomputes its product's aggregate. -/
def createReview (r : Review) (db : DB) : DB :=
  calculateAverageRating r.product { db with reviews := db.reviews ++ [r] }

/-- Modelled from the spec: review update (controller absent from the
sources) — rewrite the rating of the review with the given id, then the
`post('save')` hook recomputes the aggregate of that review's product.
If no review has the id, nothing happens. -/
def updateReview (rid : Nat) (newRating : Rat) (db : DB) : DB :=
  match db.reviews.find? (fun r => r.id == rid) with
  | none => db
  | some r =>
      calculateAverageRating r.product
        { db with reviews := db.reviews.map (fun x =>
            if x.id == rid then { x with rating := newRating } else x) }

/-- Modelled from the spec: review delete (controller absent from the
sources) — remove the review with the given id, then the `post('remove')`
hook recomputes the aggregate of that review's product. -/
def deleteReview (rid : Nat) (db : DB) : DB :=
  match db.reviews.find? (fun r => r.id == rid) with
  | none => db
  | some r =>
      calculateAverageRating r.product
        { db with reviews := db.reviews.filter (fun x => !(x.id == rid)) }

/-- A review mutation, as dispatched by the review routes. -/
inductive ReviewOp where
  | create (r : Review)
  | update (rid : Nat) (newRating : Rat)
  | delete (rid : Nat)
  deriving Repr, DecidableEq

/-- Apply one review mutation (with its post hooks) to the store. -/
def applyReviewOp : ReviewOp → DB → DB
  | .create r, db => createReview r db
  | .update rid q, db => updateReview rid q db
  | .delete rid, db => deleteReview rid db

/-- Result of the stock-update handler; every constructor carries the
resulting product collection. -/
inductive StockResult where
  | invalidOp (products : List Product)
  | notFound (products : List Product)
  | validationError (products : List Product)
  | ok (products : List Product)
  deriving Repr, DecidableEq

/-- The `switch (operation)` body of `updateStock`
(`productController`, lines 364–374). -/
def applyStockOp (operation : String) (stock quantity : Int) : Int :=
  if operation == "add" then stock + quantity
  else if operation == "subtract" then max 0 (stock - quantity)
  else if operation == "set" then quantity
  else stock

/-- `exports.updateStock` from the product controller, lines 344–385:
reject an operation name outside `['add', 'subtract', 'set']` with 400
before looking up the product; 404 when the product id resolves to nothing;
otherwise apply the operation to `product.stock` and `save()` — the schema's
`min: 0` on `stock` makes the save fail validation if the new stock is
negative. -/
def updateStock (pid : Nat) (operation : String) (quantity : Int)
    (products : List Product) : StockResult :=
  if !(["add", "subtract", "set"].contains operation) then
    .invalidOp products
  else
    match products.find? (fun p => p.id == pid) with
    | none => .notFound products
    | some p =>
        let newStock := applyStockOp operation p.stock quantity
        if newStock < 0 then .validationError products
        else .ok (products.map (fun q =>
          if q.id == pid then { q with stock := newStock } else q))

/-- Result of the category update handler; constructors carry the
resulting category collection. -/
inductive CatUpdateResult where
  | notFound (cats : List Cat)
  | invalidOp (cats : List Cat)
  | ok (cats : List Cat)
  deriving Repr, DecidableEq

/-- An update payload for a category: each field optional, absent fields
leave the stored value (the payload's `parentCategory` being `some p`
models a truthy parent id in `req.body`). -/
structure CatBody where
  name : Option String := none
  description : Option String := none
  parentCategory : Option Nat := none
  isActive : Option Bool := none
  deriving Repr, DecidableEq

/-- The `findByIdAndUpdate(id, req.body)` write of `updateCategory`:
rewrite the category with the given id by the payload's present fields. -/
def applyCatBody (id : Nat) (body : CatBody) (cats : List Cat) : List Cat :=
  cats.map (fun c =>
    if c.id == id then
      { c with name := body.name.getD c.name,
               description := body.description.getD c.description,
               parent := match body.parentCategory with
                         | some p => some p
                         | none => c.parent,
               isActive := body.isActive.getD c.isActive }
    else c)

/-- `exports.updateCategory` from
`src/server/src/controllers/categoryController.js` lines 136–181: 404 when
the id resolves to nothing; when the payload carries a parent id, 400 when
it equals the category's own id, 404 when it resolves to no category;
otherwise `findByIdAndUpdate` with the payload. -/
def updateCategory (id : Nat) (body : CatBody) (cats : List Cat) :
    CatUpdateResult :=
  match cats.find? (fun c => c.id == id) with
  | none => .notFound cats
  | some _ =>
      match body.parentCategory with
      | some p =>
          if p == id then .invalidOp cats
          else
            match cats.find? (fun c => c.id == p) with
            | none => .notFound cats
            | some _ => .ok (applyCatBody id body cats)
      | none => .ok (applyCatBody id body cats)

/-- Result of the category delete handler; the conflict constructors carry
the dependent count reported in the error message, and every constructor
carries the resulting category collection. -/
inductive CatDeleteResult where
  | notFound (cats : List Cat)
  | conflictProducts (n : Nat) (cats : List Cat)
  | conflictSubcats (n : Nat) (cats : List Cat)
  | ok (cats : List Cat)
  deriving Repr, DecidableEq

/-- `exports.deleteCategory` from
`src/server/src/controllers/categoryController.js` lines 186–230: 404 when
the id resolves to nothing; 400 reporting `productCount` when products
reference the category; 400 reporting `subcategoryCount` when categories
name it as parent; otherwise `deleteOne`. -/
def deleteCategory (id : Nat) (cats : List Cat) (products : List Product) :
    CatDeleteResult :=
  match cats.find? (fun c => c.id == id) with
  | none => .notFound cats
  | some _ =>
      let productCount := (products.filter (fun p => p.category == id)).length
      if productCount > 0 then .conflictProducts productCount cats
      else
        let subcategoryCount := (cats.filter (fun c => c.parent == some id)).length
        if subcategoryCount > 0 then .conflictSubcats subcategoryCount cats
        else .ok (cats.filter (fun c => !(c.id == id)))

/-- A node of the category tree of `getCategoryTree`: the projected fields
plus the children. -/
inductive CNode where
  | mk (id : Nat) (name slug description image : String)
       (children : List CNode)
  deriving Repr

/-- The id carried by a tree node. -/
def CNode.nid : CNode → Nat
  | .mk i _ _ _ _ _ => i

/-- The children carried by a tree node. -/
def CNode.children : CNode → List CNode
  | .mk _ _ _ _ _ cs => cs

/-- `buildTree` from `getCategoryTree`
(`src/server/src/controllers/categoryController.js` lines 291–308), with an
explicit recursion-depth budget: the JS function filters the (unchanging)
category list by parent pointer and recurses on each child's id; the budget
only models how deep that recursion can go, and the termination theorem
shows a budget of `cats.length + 1` is never exhausted when ids are
distinct.  `c.parent == parentId` is the JS test: `parentId === null`
keeps the categories with no parent, otherwise `toString` equality. -/
def buildTreeFuel : Nat → List Cat → Option Nat → List CNode
  | 0, _, _ => []
  | fuel + 1, cats, parentId =>
      (cats.filter (fun c => c.parent == parentId)).map (fun c =>
        .mk c.id c.name c.slug c.description c.image
          (buildTreeFuel fuel cats (some c.id)))

/-- The tree `getCategoryTree` responds with: `buildTree()` on the active
categories, at the sufficient recursion budget. -/
def buildTree (cats : List Cat) : List CNode :=
  buildTreeFuel (cats.length + 1) cats none

/-- `getCategoryTree`: load the active categories, build the tree. -/
def getCategoryTree (allCats : List Cat) : List CNode :=
  buildTree (allCats.filter (fun c => c.isActive))

/-- The chain of recursive calls of `buildTree` that leads to a call with
parent argument `parentId`: `Calls cats l parentId` holds when `l` is the
stack of categories (innermost first) through which the recursion reached
that call, starting from the root call `buildTree(null)`. -/
inductive Calls (cats : List Cat) : List Cat → Option Nat → Prop
  | nil : Calls cats [] none
  | cons {c : Cat} {l : List Cat} (hc : c ∈ cats)
      (h : Calls cats l c.parent) : Calls cats (c :: l) (some c.id)

/-- A category reachable from a null-parent root by following parent
pointers backwards — exactly the categories `buildTree` can visit. -/
inductive Reach (cats : List Cat) : Cat → Prop
  | root {c : Cat} (hc : c ∈ cats) (hp : c.parent = none) : Reach cats c
  | child {c p : Cat} (hc : c ∈ cats) (hp : c.parent = some p.id)
      (h : Reach cats p) : Reach cats c

/-- All category ids occurring anywhere in a tree. -/
def treeIds : List CNode → List Nat
  | [] => []
  | .mk i _ _ _ _ cs :: rest => i :: (treeIds cs ++ treeIds rest)

/-! ### The catalog query builder (`exports.getProducts`) -/

/-- A value of an Express-parsed query parameter: a string, or a nested
object such as the `{lt: "1000"}` that `price[lt]=1000` parses to. -/
inductive QVal where
  | str (s : String) : QVal
  | obj (fields : List (String × QVal)) : QVal
  deriving Repr

/-- JS `\w`: ASCII letters, digits and underscore. -/
def isWordChar (c : Char) : Bool :=
  c.isAlpha || c.isDigit || c == '_'

/-- The operator words of the regex `\b(gt|gte|lt|lte|in)\b`. -/
def opWords : List String := ["gt", "gte", "lt", "lte", "in"]

/-- Emit one maximal run of word characters (given reversed), prefixing it
with `$` exactly when it is one of the operator words — the effect of the
regex replacement on that run. -/
def emitWord (rev : List Char) : List Char :=
  let w := rev.reverse
  if opWords.contains (String.mk w) then '$' :: w else w

/-- Character-level engine of the regex replacement
`queryStr.replace(/\b(gt|gte|lt|lte|in)\b/g, m => `$` + m)`: scan the
characters, accumulate the current maximal word-character run (reversed),
and flush it through `emitWord` at every word boundary. -/
def replaceOpsAux : List Char → List Char → List Char
  | [], acc => emitWord acc
  | c :: rest, acc =>
      if isWordChar c then replaceOpsAux rest (c :: acc)
      else emitWord acc ++ c :: replaceOpsAux rest []

/-- The word-boundary replacement applied to one string. -/
def replaceOps (s : String) : String :=
  String.mk (replaceOpsAux s.data [])

/-- The replacement lifted to a query value.  The JS code serialises the
whole query object with `JSON.stringify`, replaces in the serialised text,
and `JSON.parse`s it back; since the five operator words contain no JSON
metacharacter and the replacement only inserts `$`, on keys and values free
of JSON-escaped characters (quotes, backslashes, control characters) this
round trip is exactly the structural map that rewrites every key and every
string value by `replaceOps`. -/
def replaceOpsVal : QVal → QVal
  | .str s => .str (replaceOps s)
  | .obj fields => .obj (replaceOpsObj fields)
where
  /-- The replacement lifted to the field list of an object. -/
  replaceOpsObj : List (String × QVal) → List (String × QVal)
  | [] => []
  | (k, v) :: rest => (replaceOps k, replaceOpsVal v) :: replaceOpsObj rest

/-- The reserved parameters `getProducts` removes before building the
filter (`removeFields`, product controller line 83). -/
def removeFields : List String := ["select", "sort", "page", "limit", "search"]

/-- The filter-building stage of `exports.getProducts` (product controller
lines 79–93): drop the reserved parameters, serialise, apply the operator
regex, parse back. -/
def buildFilter (q : List (String × QVal)) : List (String × QVal) :=
  replaceOpsVal.replaceOpsObj (q.filter (fun kv => !(removeFields.contains kv.1)))

/-- JS `parseInt(s, 10)`: skip leading whitespace, read an optional sign,
then the longest prefix of decimal digits; `none` models `NaN`. -/
def parseIntJS (s : String) : Option Int :=
  let rec digits : List Char → Option Nat
    | l =>
      let ds := l.takeWhile Char.isDigit
      if ds.isEmpty then none
      else some (ds.foldl (fun n c => 10 * n + (c.toNat - '0'.toNat)) 0)
  match s.data.dropWhile Char.isWhitespace with
  | '-' :: rest => (digits rest).map (fun n => -(n : Int))
  | '+' :: rest => (digits rest).map (fun n => (n : Int))
  | l => (digits l).map (fun n => (n : Int))

/-- `parseInt(x, 10) || d`: the default replaces `NaN` (absent or
non-numeric parameter) and `0`, and nothing else. -/
def parseIntOr (q : Option String) (d : Int) : Int :=
  match q.bind parseIntJS with
  | none => d
  | some n => if n = 0 then d else n

/-- The effective page of `getProducts`: `parseInt(req.query.page, 10) || 1`. -/
def pageOf (q : Option String) : Int := parseIntOr q 1

/-- The effective limit of `getProducts`: `parseInt(req.query.limit, 10) || 10`. -/
def limitOf (q : Option String) : Int := parseIntOr q 10

/-- The response envelope of the pagination stage. -/
structure PageResult (α : Type) where
  count : Nat
  data : List α
  next : Option (Int × Int)
  prev : Option (Int × Int)
  deriving Repr, DecidableEq

/-- The pagination stage of `exports.getProducts` (product controller lines
120–147) over the already filtered and sorted match list: compute
`startIndex = (page-1)*limit` and `endIndex = page*limit`, count the
matches with a separate count query over the same filters, slice the
matches with `skip`/`limit`, and attach `next` when `endIndex < total` and
`prev` when `startIndex > 0`.  The store rejects a negative skip, which the
handler surfaces as an error (`Except.error`); a negative limit is read by
the store as its absolute value. -/
def paginate (found : List α) (pageQ limitQ : Option String) :
    Except Unit (PageResult α) :=
  let page := pageOf pageQ
  let limit := limitOf limitQ
  let startIndex := (page - 1) * limit
  let endIndex := page * limit
  let total : Int := found.length
  if startIndex < 0 then .error ()
  else
    let items := (found.drop startIndex.toNat).take limit.natAbs
    .ok { count := items.length
          data := items
          next := if endIndex < total then some (page + 1, limit) else none
          prev := if startIndex > 0 then some (page - 1, limit) else none }

/-! ### Theorems -/

/-- **C5.** For every category id and update payload (the category existing
in the store), a payload whose `parentCategory` equals the category's own
id makes `updateCategory` fail with InvalidOperation (400) and leaves the
category collection completely unmutated; a payload whose `parentCategory`
names a non-existent category makes it fail with NotFound (404), also
leaving the collection unmutated. -/
theorem claim_C5_updateCategory_guards
    (cats : List Cat) (id : Nat) (body : CatBody)
    (hex : (cats.find? (fun c => c.id == id)).isSome) :
    (body.parentCategory = some id →
      updateCategory id body cats = .invalidOp cats)
    ∧ (∀ p, body.parentCategory = some p → p ≠ id →
        cats.find? (fun c => c.id == p) = none →
        updateCategory id body cats = .notFound cats) := by
  obtain ⟨c, hc⟩ := Option.isSome_iff_exists.mp hex
  constructor
  · intro hp
    simp [updateCategory, hc, hp]
  · intro p hp hne hnone
    simp [updateCategory, hc, hp, hne, hnone]

/-- Witness for C5 at a concrete store: category 1 exists; self-parenting
it is refused as invalid, reparenting it to the absent id 7 is refused as
not-found, both leaving the collection untouched. -/
theorem claim_C5_witness :
    updateCategory 1 { parentCategory := some 1 }
        [⟨1, none, "a", "a", "", "", true⟩] =
      .invalidOp [⟨1, none, "a", "a", "", "", true⟩]
    ∧ updateCategory 1 { parentCategory := some 7 }
        [⟨1, none, "a", "a", "", "", true⟩] =
      .notFound [⟨1, none, "a", "a", "", "", true⟩] := by
  have h := claim_C5_updateCategory_guards
    [⟨1, none, "a", "a", "", "", true⟩] 1 { parentCategory := some 1 }
    (by decide)
  have h' := claim_C5_updateCategory_guards
    [⟨1, none, "a", "a", "", "", true⟩] 1 { parentCategory := some 7 }
    (by decide)
  exact ⟨h.1 rfl, h'.2 7 rfl (by decide) (by decide)⟩

/-- **C6.** For every category id present in the store, `deleteCategory`
fails with a Conflict reporting the product count when products reference
the category; with the product count zero it fails with a Conflict
reporting the subcategory count when categories name it as parent; and it
deletes the category exactly when both counts are zero.  The conflict
results carry the unchanged collection. -/
theorem claim_C6_deleteCategory_guards
    (id : Nat) (cats : List Cat) (products : List Product)
    (hex : (cats.find? (fun c => c.id == id)).isSome) :
    (0 < (products.filter (fun p => p.category == id)).length →
      deleteCategory id cats products =
        .conflictProducts (products.filter (fun p => p.category == id)).length cats)
    ∧ ((products.filter (fun p => p.category == id)).length = 0 →
       0 < (cats.filter (fun c => c.parent == some id)).length →
      deleteCategory id cats products =
        .conflictSubcats (cats.filter (fun c => c.parent == some id)).length cats)
    ∧ ((products.filter (fun p => p.category == id)).length = 0 →
       (cats.filter (fun c => c.parent == some id)).length = 0 →
      deleteCategory id cats products =
        .ok (cats.filter (fun c => !(c.id == id)))) := by
  obtain ⟨c, hc⟩ := Option.isSome_iff_exists.mp hex
  refine ⟨fun hp => ?_, fun hp hs => ?_, fun hp hs => ?_⟩
  · simp [deleteCategory, hc, Nat.pos_iff_ne_zero.mp hp]
  · simp [deleteCategory, hc, hp, Nat.pos_iff_ne_zero.mp hs]
  · simp [deleteCategory, hc, hp, hs]

/-- Witness for C6: category 1 with one dependent product conflicts with
count 1; category 2 with no dependents is deleted. -/
theorem claim_C6_witness :
    deleteCategory 1
        [⟨1, none, "a", "a", "", "", true⟩, ⟨2, none, "b", "b", "", "", true⟩]
        [⟨10, 1, 0, 0, 5, true⟩] =
      .conflictProducts 1
        [⟨1, none, "a", "a", "", "", true⟩, ⟨2, none, "b", "b", "", "", true⟩]
    ∧ deleteCategory 2
        [⟨1, none, "a", "a", "", "", true⟩, ⟨2, none, "b", "b", "", "", true⟩]
        [⟨10, 1, 0, 0, 5, true⟩] =
      .ok [⟨1, none, "a", "a", "", "", true⟩] := by
  have h1 := claim_C6_deleteCategory_guards 1
    [⟨1, none, "a", "a", "", "", true⟩, ⟨2, none, "b", "b", "", "", true⟩]
    [⟨10, 1, 0, 0, 5, true⟩] (by decide)
  have h2 := claim_C6_deleteCategory_guards 2
    [⟨1, none, "a", "a", "", "", true⟩, ⟨2, none, "b", "b", "", "", true⟩]
    [⟨10, 1, 0, 0, 5, true⟩] (by decide)
  exact ⟨h1.1 (by decide), by
    have := h2.2.2 (by decide) (by decide)
    simpa using this⟩

/-- **C7.** For every product id with zero reviews referencing it, running
`calculateAverageRating` writes `rating = 0` and `numReviews = 0` onto the
product record with that id. -/
theorem claim_C7_calculateAverageRating_empty
    (db : DB) (pid : Nat) (p : Product)
    (hrev : db.reviews.filter (fun r => r.product == pid) = [])
    (hp : p ∈ db.products) (hid : p.id = pid) :
    { p with rating := 0, numReviews := 0 } ∈
      (calculateAverageRating pid db).products := by
  simp only [calculateAverageRating, hrev, List.length_nil, gt_iff_lt,
    lt_self_iff_false, if_false]
  exact List.mem_map.mpr ⟨p, hp, by simp [hid]⟩

/-- Witness for C7: a product with a stale aggregate and no reviews gets
rating 0 and numReviews 0. -/
theorem claim_C7_witness :
    ({ id := 3, category := 1, rating := 0, numReviews := 0, stock := 2,
       isActive := true } : Product) ∈
      (calculateAverageRating 3
        { products := [⟨3, 1, 4, 2, 2, true⟩],
          reviews := [⟨1, 9, 1, 5⟩] }).products := by
  have h := claim_C7_calculateAverageRating_empty
    { products := [⟨3, 1, 4, 2, 2, true⟩], reviews := [⟨1, 9, 1, 5⟩] }
    3 ⟨3, 1, 4, 2, 2, true⟩ (by decide) (by simp) rfl
  simpa using h

/-- **C8.** The rating aggregator never mutates a review document, mutates
no product other than the one it targets, and is a silent no-op on the
whole store when no product carries the targeted id. -/
theorem claim_C8_calculateAverageRating_frame (db : DB) (pid : Nat) :
    (calculateAverageRating pid db).reviews = db.reviews
    ∧ (∀ p ∈ db.products, p.id ≠ pid →
        p ∈ (calculateAverageRating pid db).products)
    ∧ ((∀ p ∈ db.products, p.id ≠ pid) →
        calculateAverageRating pid db = db) := by
  refine ⟨?_, fun p hp hne => ?_, fun hall => ?_⟩
  · unfold calculateAverageRating
    split <;> rfl
  · unfold calculateAverageRating
    split <;> exact List.mem_map.mpr ⟨p, hp, by simp [hne]⟩
  · have hmap2 : ∀ (f : Product → Product), db.products.map (fun p =>
        if p.id == pid then f p else p) = db.products := by
      intro f
      conv_rhs => rw [← List.map_id db.products]
      refine List.map_congr_left (fun p hp => ?_)
      have hfalse : (p.id == pid) = false := by simp [hall p hp]
      simp [hfalse]
    unfold calculateAverageRating
    split <;> (rw [hmap2])

/-- Witness for C8: with no product of id 9 the aggregator leaves the
store exactly as it was. -/
theorem claim_C8_witness :
    calculateAverageRating 9
        { products := [⟨3, 1, 4, 2, 2, true⟩], reviews := [⟨1, 9, 1, 5⟩] } =
      { products := [⟨3, 1, 4, 2, 2, true⟩], reviews := [⟨1, 9, 1, 5⟩] } := by
  exact (claim_C8_calculateAverageRating_frame
    { products := [⟨3, 1, 4, 2, 2, true⟩], reviews := [⟨1, 9, 1, 5⟩] } 9).2.2
    (by decide)

/-- **C10.** An operation name outside `add`/`subtract`/`set` is rejected
with InvalidOperation (400) before the product is looked up or touched —
for every store, including ones where the product id resolves to nothing —
and `subtract` stores `max 0 (stock - quantity)`, which is never negative. -/
theorem claim_C10_updateStock
    (pid : Nat) (quantity : Int) (products : List Product) :
    (∀ operation : String,
      operation ∉ (["add", "subtract", "set"] : List String) →
      updateStock pid operation quantity products = .invalidOp products)
    ∧ (∀ p : Product, products.find? (fun x => x.id == pid) = some p →
        ∃ l, updateStock pid "subtract" quantity products = .ok l
          ∧ { p with stock := max 0 (p.stock - quantity) } ∈ l
          ∧ 0 ≤ max (0 : Int) (p.stock - quantity)) := by
  constructor
  · intro operation hop
    have hcon : (["add", "subtract", "set"] : List String).contains operation = false := by
      simpa using hop
    unfold updateStock
    rw [hcon]
    rfl
  · intro p hfind
    have hmem : p ∈ products := List.mem_of_find?_eq_some hfind
    have hid : (p.id == pid) = true := by
      have h := List.find?_some hfind
      simpa using h
    have hnn : ¬ (max (0 : Int) (p.stock - quantity) < 0) := by
      simp [le_max_left]
    refine ⟨products.map (fun q =>
      if q.id == pid then { q with stock := max 0 (p.stock - quantity) } else q),
      ?_, ?_, le_max_left 0 _⟩
    · simp [updateStock, hfind, applyStockOp, hnn]
    · exact List.mem_map.mpr ⟨p, hmem, by simp [hid]⟩

/-- Witness for C10: the operation name `"remove"` is rejected up front on
a store where product 5 does not even exist, and a subtract of 7 from a
stock of 3 stores 0. -/
theorem claim_C10_witness :
    updateStock 5 "remove" 7 [] = .invalidOp []
    ∧ ∃ l, updateStock 3 "subtract" 7 [⟨3, 1, 0, 0, 3, true⟩] = .ok l
        ∧ ({ id := 3, category := 1, rating := 0, numReviews := 0,
             stock := 0, isActive := true } : Product) ∈ l := by
  constructor
  · exact (claim_C10_updateStock 5 7 []).1 "remove" (by decide)
  · obtain ⟨l, hok, hmem, -⟩ :=
      (claim_C10_updateStock 3 7 [⟨3, 1, 0, 0, 3, true⟩]).2
        ⟨3, 1, 0, 0, 3, true⟩ (by decide)
    exact ⟨l, hok, by simpa using hmem⟩

/-- The aggregator never touches the review collection. -/
theorem calc_reviews_eq (pid : Nat) (db : DB) :
    (calculateAverageRating pid db).reviews = db.reviews := by
  unfold calculateAverageRating
  split <;> rfl

/-- Every product in the store after the aggregator ran is either an
untouched product of another id, or carries the freshly computed aggregate
of the targeted id. -/
theorem calc_restores (db : DB) (pid : Nat) :
    ∀ p' ∈ (calculateAverageRating pid db).products,
      (p' ∈ db.products ∧ p'.id ≠ pid) ∨ (p'.id = pid ∧ invAt db.reviews p') := by
  intro p' hp'
  unfold calculateAverageRating at hp'
  by_cases hlen : (db.reviews.filter (fun r => r.product == pid)).length > 0
  · rw [if_pos hlen] at hp'
    obtain ⟨p, hp, heq⟩ := List.mem_map.mp hp'
    by_cases hpid : p.id = pid
    · right
      have hbeq : (p.id == pid) = true := by simp [hpid]
      rw [hbeq, if_pos rfl] at heq
      refine ⟨by rw [← heq]; exact hpid, ?_, ?_⟩
      · rw [← heq]
        simp [hpid]
      · rw [← heq]
        simp [hpid]
    · left
      have hbeq : (p.id == pid) = false := by simp [hpid]
      rw [hbeq] at heq
      simp only [Bool.false_eq_true, if_false] at heq
      exact ⟨heq ▸ hp, heq ▸ hpid⟩
  · rw [if_neg hlen] at hp'
    obtain ⟨p, hp, heq⟩ := List.mem_map.mp hp'
    by_cases hpid : p.id = pid
    · right
      have hempty : db.reviews.filter (fun r => r.product == pid) = [] :=
        List.length_eq_zero.mp (Nat.eq_zero_of_not_pos hlen)
      have hbeq : (p.id == pid) = true := by simp [hpid]
      rw [hbeq, if_pos rfl] at heq
      refine ⟨by rw [← heq]; exact hpid, ?_, ?_⟩
      · rw [← heq]
        simp [invAt, hpid, hempty, meanRating]
      · rw [← heq]
        simp [hpid, hempty]
    · left
      have hbeq : (p.id == pid) = false := by simp [hpid]
      rw [hbeq] at heq
      simp only [Bool.false_eq_true, if_false] at heq
      exact ⟨heq ▸ hp, heq ▸ hpid⟩

/-- **C1.** After any review create, update, or delete settles (the
post-save/post-remove hooks having run `calculateAverageRating` on the
review's product), the store-wide aggregate invariant — every product's
`rating` is the mean and its `numReviews` the count of the reviews
referencing it — is preserved.  Review ids are pairwise distinct, as the
store's `_id` uniqueness guarantees. -/
theorem claim_C1_review_ops_preserve_invariant
    (op : ReviewOp) (db : DB)
    (hnodup : (db.reviews.map (fun r => r.id)).Nodup)
    (hinv : ratingInvariant db) :
    ratingInvariant (applyReviewOp op db) := by
  have step : ∀ (rs : List Review) (pid : Nat),
      (∀ i, i ≠ pid →
        rs.filter (fun r => r.product == i) =
        db.reviews.filter (fun r => r.product == i)) →
      ratingInvariant (calculateAverageRating pid { db with reviews := rs }) := by
    intro rs pid hframe p' hp'
    rw [calc_reviews_eq]
    rcases calc_restores { db with reviews := rs } pid p' hp' with ⟨hmem, hne⟩ | ⟨_, hclause⟩
    · have hold := hinv p' hmem
      unfold invAt at hold ⊢
      rw [show ({ db with reviews := rs } : DB).reviews = rs from rfl,
        hframe p'.id hne]
      exact hold
    · exact hclause
  cases op with
  | create r =>
      refine step (db.reviews ++ [r]) r.product (fun i hi => ?_)
      have hne : (r.product == i) = false := by
        simp only [beq_eq_false_iff_ne]
        exact Ne.symm hi
      simp [List.filter_append, hne]
  | update rid nq =>
      show ratingInvariant (updateReview rid nq db)
      unfold updateReview
      cases hfind : db.reviews.find? (fun r => r.id == rid) with
      | none => exact hinv
      | some r =>
          refine step _ r.product (fun i hi => ?_)
          have hr : r ∈ db.reviews := List.mem_of_find?_eq_some hfind
          have hrid : r.id = rid := by
            have h := List.find?_some hfind
            simpa using h
          rw [List.filter_map]
          have hcomp : ((fun x : Review => x.product == i) ∘
              (fun x => if x.id == rid then { x with rating := nq } else x))
              = fun x : Review => x.product == i := by
            funext x
            by_cases h : x.id = rid <;> simp [h]
          rw [hcomp]
          have hfix : ∀ x ∈ db.reviews.filter (fun r => r.product == i),
              (fun x : Review =>
                if x.id == rid then { x with rating := nq } else x) x = id x := by
            intro x hx
            obtain ⟨hxmem, hxprod⟩ := List.mem_filter.mp hx
            have hxi : x.product = i := by simpa using hxprod
            by_cases h : (x.id == rid) = true
            · exfalso
              have hxid : x.id = rid := by simpa using h
              have hxr : x = r :=
                List.inj_on_of_nodup_map hnodup hxmem hr (by rw [hxid, hrid])
              exact hi (by rw [← hxi, hxr])
            · simp [h]
          rw [List.map_congr_left hfix, List.map_id]
  | delete rid =>
      show ratingInvariant (deleteReview rid db)
      unfold deleteReview
      cases hfind : db.reviews.find? (fun r => r.id == rid) with
      | none => exact hinv
      | some r =>
          refine step _ r.product (fun i hi => ?_)
          have hr : r ∈ db.reviews := List.mem_of_find?_eq_some hfind
          have hrid : r.id = rid := by
            have h := List.find?_some hfind
            simpa using h
          rw [List.filter_filter]
          refine List.filter_congr (fun x hx => ?_)
          by_cases hpx : (x.product == i) = true
          · have hxid : (x.id == rid) = false := by
              by_cases hc : (x.id == rid) = true
              · exfalso
                have hxid' : x.id = rid := by simpa using hc
                have hxr : x = r :=
                  List.inj_on_of_nodup_map hnodup hx hr (by rw [hxid', hrid])
                have hxi : x.product = i := by simpa using hpx
                exact hi (by rw [← hxi, hxr])
              · simpa using hc
            simp [hpx, hxid]
          · have hpx' : (x.product == i) = false := by simpa using hpx
            simp [hpx']

/-- Witness for C1: a one-product, one-review consistent store stays
consistent after a second review by another user is created. -/
theorem claim_C1_witness :
    ((([⟨1, 7, 1, 4⟩] : List Review).map (fun r => r.id)).Nodup
    ∧ ratingInvariant { products := [⟨7, 1, 4, 1, 2, true⟩],
                        reviews := [⟨1, 7, 1, 4⟩] })
    ∧ ratingInvariant (applyReviewOp (.create ⟨2, 7, 2, 2⟩)
        { products := [⟨7, 1, 4, 1, 2, true⟩], reviews := [⟨1, 7, 1, 4⟩] }) := by
  have hn : (([⟨1, 7, 1, 4⟩] : List Review).map (fun r => r.id)).Nodup := by
    decide
  have hi : ratingInvariant
      { products := [⟨7, 1, 4, 1, 2, true⟩], reviews := [⟨1, 7, 1, 4⟩] } := by
    intro p hp
    simp only [List.mem_singleton] at hp
    subst hp
    constructor
    · show (4 : Rat) = meanRating _
      simp [meanRating]
    · rfl
  exact ⟨⟨hn, hi⟩, claim_C1_review_ops_preserve_invariant
    (.create ⟨2, 7, 2, 2⟩) _ hn hi⟩

/-- **C3 (counterexample).** The claim says non-numeric or ≤ 0 `page`
values fall back to the default 1 rather than raising an error; but
`parseInt('-2', 10) || 1` yields `-2` (a negative number is truthy), the
effective page is `-2`, not the default, and the resulting negative offset
makes the query error out. -/
theorem claim_C3_counterexample :
    pageOf (some "-2") = -2 ∧ ¬ pageOf (some "-2") = 1
    ∧ paginate ([0] : List Nat) (some "-2") none = .error () := by
  refine ⟨by decide, by decide, by rfl⟩

/-- **C3 (amended).** The product listing parses `page` and `limit` with
`parseInt`, falling back to the defaults 1 and 10 exactly when the parse is
`NaN` (absent / non-numeric) or `0`; any other parsed value — negative ones
included — is used as-is.  Whenever the effective page and limit are ≥ 1,
the returned page is the `skip`/`limit` slice of the matches, contains at
most `limit` records, the total is the count of the same match list, and
`pagination.next` is present iff `page * limit < total` while
`pagination.prev` is present iff `page > 1`. -/
theorem claim_C3_amended_pagination {α : Type} (found : List α)
    (pq lq : Option String) :
    (pageOf none = 1 ∧ limitOf none = 10)
    ∧ (∀ s, parseIntJS s = none ∨ parseIntJS s = some 0 →
        pageOf (some s) = 1 ∧ limitOf (some s) = 10)
    ∧ (∀ s n, parseIntJS s = some n → n ≠ 0 →
        pageOf (some s) = n ∧ limitOf (some s) = n)
    ∧ (1 ≤ pageOf pq → 1 ≤ limitOf lq →
        ∃ r, paginate found pq lq = .ok r
          ∧ r.data = (found.drop ((pageOf pq - 1) * limitOf lq).toNat).take
              (limitOf lq).toNat
          ∧ r.data.length ≤ (limitOf lq).toNat
          ∧ (r.next.isSome ↔ pageOf pq * limitOf lq < (found.length : Int))
          ∧ (r.prev.isSome ↔ 1 < pageOf pq)) := by
  refine ⟨⟨rfl, rfl⟩, ?_, ?_, ?_⟩
  · rintro s (h | h) <;> simp [pageOf, limitOf, parseIntOr, h]
  · intro s n h hn
    simp [pageOf, limitOf, parseIntOr, h, hn]
  · intro hp hl
    have h0 : ¬ ((pageOf pq - 1) * limitOf lq < 0) := by
      have := mul_nonneg (by omega : (0 : Int) ≤ pageOf pq - 1)
        (by omega : (0 : Int) ≤ limitOf lq)
      omega
    have habs : (limitOf lq).natAbs = (limitOf lq).toNat := by omega
    have hok : paginate found pq lq = .ok
        { count := ((found.drop ((pageOf pq - 1) * limitOf lq).toNat).take
            (limitOf lq).natAbs).length
          data := (found.drop ((pageOf pq - 1) * limitOf lq).toNat).take
            (limitOf lq).natAbs
          next := if pageOf pq * limitOf lq < (found.length : Int)
            then some (pageOf pq + 1, limitOf lq) else none
          prev := if (pageOf pq - 1) * limitOf lq > 0
            then some (pageOf pq - 1, limitOf lq) else none } := by
      simp only [paginate]
      rw [if_neg h0]
    refine ⟨_, hok, ?_, ?_, ?_, ?_⟩
    · rw [habs]
    · calc ((found.drop ((pageOf pq - 1) * limitOf lq).toNat).take
            (limitOf lq).natAbs).length
          ≤ (limitOf lq).natAbs := List.length_take_le _ _
        _ = (limitOf lq).toNat := habs
    · by_cases h : pageOf pq * limitOf lq < (found.length : Int) <;> simp [h]
    · have hiff : (pageOf pq - 1) * limitOf lq > 0 ↔ 1 < pageOf pq := by
        constructor
        · intro h
          by_contra hc
          have h1 : pageOf pq - 1 ≤ 0 := by omega
          have h2 : (pageOf pq - 1) * limitOf lq ≤ 0 :=
            mul_nonpos_iff.mpr (Or.inr ⟨h1, by omega⟩)
          omega
        · intro h
          exact mul_pos (by omega) (by omega)
      by_cases h : (pageOf pq - 1) * limitOf lq > 0
      · simp [h, hiff.mp h]
      · have hnp : ¬ 1 < pageOf pq := fun hc => h (hiff.mpr hc)
        simp [h, hnp]

/-- Witness for C3 (amended) at the query of spec §8:
`page=2&limit=10` over 25 matches returns the 10 matches after the first
10, with both `next` and `prev` present. -/
theorem claim_C3_witness :
    ∃ r, paginate (List.range 25) (some "2") (some "10") = .ok r
      ∧ r.data = ((List.range 25).drop 10).take 10
      ∧ r.data.length ≤ 10
      ∧ r.next.isSome
      ∧ r.prev.isSome := by
  obtain ⟨r, hok, hdata, hlen, hnext, hprev⟩ :=
    (claim_C3_amended_pagination (List.range 25) (some "2") (some "10")).2.2.2
      (by decide) (by decide)
  refine ⟨r, hok, ?_, ?_, ?_, ?_⟩
  · rw [hdata]
    decide
  · have h10 : (limitOf (some "10")).toNat = 10 := by decide
    rw [h10] at hlen
    exact hlen
  · rw [hnext]
    decide
  · rw [hprev]
    decide

/-- The filter translation as the spec's words describe it: drop the
reserved parameters, `$`-prefix exactly the nested keys that are operator
suffixes, and leave every other key and every value unchanged.  Written
from the spec for comparison against `buildFilter`, the function embedded
from the code. -/
def specTranslateVal : QVal → QVal
  | .str s => .str s
  | .obj fields => .obj (specTranslateObj fields)
where
  /-- Spec-side translation of the field list of a nested object: operator
  keys get the `$` prefix, values are translated recursively. -/
  specTranslateObj : List (String × QVal) → List (String × QVal)
  | [] => []
  | (k, v) :: rest =>
      (if opWords.contains k then "$" ++ k else k, specTranslateVal v)
        :: specTranslateObj rest

/-- The spec-side filter stage: reserved parameters dropped, top-level
keys untouched, operator suffixes in the values translated. -/
def specTranslate (q : List (String × QVal)) : List (String × QVal) :=
  (q.filter (fun kv => !(removeFields.contains kv.1))).map
    (fun kv => (kv.1, specTranslateVal kv.2))

/-- Whether a maximal word run held in `acc` (reversed) plus the runs of
the remaining characters avoid every operator word — i.e. the regex
`\b(gt|gte|lt|lte|in)\b` has no match. -/
def opFreeAux : List Char → List Char → Bool
  | [], acc => !(opWords.contains (String.mk acc.reverse))
  | c :: rest, acc =>
      if isWordChar c then opFreeAux rest (c :: acc)
      else !(opWords.contains (String.mk acc.reverse)) && opFreeAux rest []

/-- A string none of whose standalone words is one of the five operator
words: the regex replacement leaves it unchanged. -/
def opFree (s : String) : Bool := opFreeAux s.data []

/-- A query value whose strings are operator-word-free and whose nested
keys are either exact operator suffixes or operator-word-free. -/
def valFree : QVal → Bool
  | .str s => opFree s
  | .obj fields => objFree fields
where
  /-- `valFree` over the field list of a nested object. -/
  objFree : List (String × QVal) → Bool
  | [] => true
  | (k, v) :: rest =>
      (opWords.contains k || opFree k) && valFree v && objFree rest

/-- A query every one of whose keys is operator-word-free and every one of
whose values is `valFree`. -/
def queryFree : List (String × QVal) → Bool
  | [] => true
  | (k, v) :: rest => opFree k && valFree v && queryFree rest

/-- On an operator-word-free run stack and remainder, the replacement
engine reproduces its input. -/
theorem replaceOpsAux_of_opFree :
    ∀ (l acc : List Char), opFreeAux l acc = true →
      replaceOpsAux l acc = acc.reverse ++ l := by
  intro l
  induction l with
  | nil =>
      intro acc h
      have h' : opWords.contains (String.mk acc.reverse) = false := by
        simpa [opFreeAux] using h
      show (if opWords.contains (String.mk acc.reverse) = true
          then '$' :: acc.reverse else acc.reverse) = acc.reverse ++ []
      rw [List.append_nil, h']
      simp
  | cons c rest ih =>
      intro acc h
      by_cases hw : isWordChar c = true
      · rw [opFreeAux, if_pos hw] at h
        rw [replaceOpsAux, if_pos hw, ih _ h]
        simp
      · rw [opFreeAux, if_neg hw] at h
        rw [Bool.and_eq_true] at h
        obtain ⟨h1, h2⟩ := h
        rw [replaceOpsAux, if_neg hw, ih _ h2]
        simp only [Bool.not_eq_true'] at h1
        show (if opWords.contains (String.mk acc.reverse) = true
            then '$' :: acc.reverse else acc.reverse) ++ c :: ([].reverse ++ rest)
          = acc.reverse ++ c :: rest
        rw [h1]
        simp

/-- The regex replacement is the identity on operator-word-free strings. -/
theorem replaceOps_of_opFree (s : String) (h : opFree s = true) :
    replaceOps s = s := by
  unfold replaceOps
  rw [replaceOpsAux_of_opFree s.data [] h]
  cases s
  rfl

/-- The regex replacement `$`-prefixes each bare operator word. -/
theorem replaceOps_opWord :
    ∀ op ∈ opWords, replaceOps op = "$" ++ op := by
  decide

mutual

/-- On `valFree` values, the code's serialise-replace-parse translation
coincides with the spec-side translation. -/
theorem replaceOpsVal_eq_spec :
    ∀ v : QVal, valFree v = true → replaceOpsVal v = specTranslateVal v
  | .str s, h => by
      simp only [replaceOpsVal, specTranslateVal]
      rw [replaceOps_of_opFree s (by simpa [valFree] using h)]
  | .obj fields, h => by
      simp only [replaceOpsVal, specTranslateVal]
      rw [replaceOpsObj_eq_spec fields (by simpa [valFree] using h)]

/-- On `valFree` field lists, the code's translation of a nested object
coincides with the spec-side one. -/
theorem replaceOpsObj_eq_spec :
    ∀ l : List (String × QVal), valFree.objFree l = true →
      replaceOpsVal.replaceOpsObj l = specTranslateVal.specTranslateObj l
  | [], _ => rfl
  | (k, v) :: rest, h => by
      simp only [valFree.objFree, Bool.and_eq_true] at h
      obtain ⟨⟨hk, hv⟩, hrest⟩ := h
      simp only [replaceOpsVal.replaceOpsObj, specTranslateVal.specTranslateObj]
      rw [replaceOpsObj_eq_spec rest hrest, replaceOpsVal_eq_spec v hv]
      rw [Bool.or_eq_true] at hk
      rcases hk with hop | hfree
      · rw [replaceOps_opWord k (by simpa using hop), if_pos (by simpa using hop)]
      · by_cases hc : opWords.contains k = true
        · exfalso
          have hmem : k ∈ opWords := by simpa using hc
          simp only [opWords, List.mem_cons, List.not_mem_nil, or_false] at hmem
          rcases hmem with rfl | rfl | rfl | rfl | rfl <;>
            exact absurd hfree (by decide)
        · rw [replaceOps_of_opFree k hfree, if_neg hc]

end

/-- **C4 (counterexample).** The claim says every non-reserved parameter
passes through with its value unchanged unless a suffix operator is used;
but the regex runs over the whole serialised query, so the filter
`brand=in` — no suffix operator anywhere — reaches the store with its
value rewritten to `$in`. -/
theorem claim_C4_counterexample :
    buildFilter [("brand", QVal.str "in")] = [("brand", QVal.str "$in")]
    ∧ ("$in" : String) ≠ "in" := by
  exact ⟨rfl, by decide⟩

/-- **C4 (amended).** The filter stage drops exactly the reserved
parameters and applies the operator-word substitution to the whole
serialised query — keys and string values alike.  On queries whose keys
and values contain no standalone operator word other than as operator
suffix keys, it therefore behaves exactly as the claim says: non-reserved
parameters pass through, operator suffixes become `$`-operators, and all
values are unchanged. -/
theorem claim_C4_amended_filter (q : List (String × QVal))
    (h : queryFree q = true) :
    buildFilter q = specTranslate q := by
  unfold buildFilter specTranslate
  have hkeep : ∀ kv ∈ q.filter (fun kv => !(removeFields.contains kv.1)),
      opFree kv.1 = true ∧ valFree kv.2 = true := by
    intro kv hkv
    have hmem : kv ∈ q := (List.mem_filter.mp hkv).1
    clear hkv
    induction q with
    | nil => cases hmem
    | cons a rest ih =>
        simp only [queryFree, Bool.and_eq_true] at h
        rcases List.mem_cons.mp hmem with heq | hmem'
        · subst heq
          exact ⟨h.1.1, h.1.2⟩
        · exact ih h.2 hmem'
  generalize hl : q.filter (fun kv => !(removeFields.contains kv.1)) = l at hkeep
  clear hl h
  induction l with
  | nil => rfl
  | cons a rest ih =>
      obtain ⟨hk, hv⟩ := hkeep a (List.mem_cons_self a rest)
      simp only [replaceOpsVal.replaceOpsObj, List.map_cons]
      rw [replaceOps_of_opFree a.1 hk, replaceOpsVal_eq_spec a.2 hv,
        ih (fun kv hkv => hkeep kv (List.mem_cons_of_mem a hkv))]

/-- Witness for C4 (amended): the query
`price[lt]=1000&brand=acme&page=2` — operator suffix on `price`, plain
value on `brand`, reserved `page` — satisfies the word-freeness premise,
and both translations agree: `page` dropped, `lt` becomes `$lt`, `brand`
untouched. -/
theorem claim_C4_witness :
    queryFree [("price", QVal.obj [("lt", QVal.str "1000")]),
        ("brand", QVal.str "acme"), ("page", QVal.str "2")] = true
    ∧ buildFilter [("price", QVal.obj [("lt", QVal.str "1000")]),
        ("brand", QVal.str "acme"), ("page", QVal.str "2")]
      = specTranslate [("price", QVal.obj [("lt", QVal.str "1000")]),
        ("brand", QVal.str "acme"), ("page", QVal.str "2")]
    ∧ specTranslate [("price", QVal.obj [("lt", QVal.str "1000")]),
        ("brand", QVal.str "acme"), ("page", QVal.str "2")]
      = [("price", QVal.obj [("$lt", QVal.str "1000")]),
        ("brand", QVal.str "acme")] := by
  refine ⟨by decide, ?_, by rfl⟩
  exact claim_C4_amended_filter _ (by decide)

/-- Every category on a call chain is in the store. -/
theorem calls_subset {cats : List Cat} :
    ∀ {l : List Cat} {pid : Option Nat}, Calls cats l pid → ∀ x ∈ l, x ∈ cats := by
  intro l pid h
  induction h with
  | nil => intro x hx; cases hx
  | cons hc _ ih =>
      intro x hx
      rcases List.mem_cons.mp hx with rfl | hx'
      · exact hc
      · exact ih x hx'

/-- Every suffix of a call chain starting at some category is itself the
call chain of that category's subtree call. -/
theorem calls_suffix {cats : List Cat} :
    ∀ {l : List Cat} {pid : Option Nat}, Calls cats l pid →
      ∀ (l1 : List Cat) (c : Cat) (l2 : List Cat), l = l1 ++ c :: l2 →
        Calls cats (c :: l2) (some c.id) := by
  intro l pid h
  induction h with
  | nil =>
      intro l1 c l2 heq
      exact absurd heq (by simp)
  | cons hc hrec ih =>
      intro l1 c l2 heq
      cases l1 with
      | nil =>
          simp only [List.nil_append, List.cons.injEq] at heq
          obtain ⟨rfl, rfl⟩ := heq
          exact Calls.cons hc hrec
      | cons a l1' =>
          simp only [List.cons_append, List.cons.injEq] at heq
          exact ih l1' c l2 heq.2

/-- Inversion of a call chain for a `some` parent argument. -/
theorem calls_some_inv {cats : List Cat} {l : List Cat} {x : Nat}
    (h : Calls cats l (some x)) :
    ∃ c l', l = c :: l' ∧ c.id = x ∧ c ∈ cats ∧ Calls cats l' c.parent := by
  cases h with
  | cons hc hrec => exact ⟨_, _, rfl, rfl, hc, hrec⟩

/-- With distinct category ids the call chain reaching a given parent
argument is unique. -/
theorem calls_unique {cats : List Cat}
    (hnodup : (cats.map (fun c => c.id)).Nodup) :
    ∀ {l l' : List Cat} {pid : Option Nat},
      Calls cats l pid → Calls cats l' pid → l = l' := by
  intro l l' pid h
  induction h generalizing l' with
  | nil =>
      intro h'
      cases h' with
      | nil => rfl
  | cons hc hrec ih =>
      rename_i c m
      intro h'
      obtain ⟨c', l'', rfl, hid, hc', hrec'⟩ := calls_some_inv h'
      have hcc : c' = c := List.inj_on_of_nodup_map hnodup hc' hc hid
      subst hcc
      rw [ih hrec']

/-- With distinct category ids a call chain never repeats a category. -/
theorem calls_nodup {cats : List Cat}
    (hnodup : (cats.map (fun c => c.id)).Nodup) :
    ∀ {l : List Cat} {pid : Option Nat}, Calls cats l pid → l.Nodup := by
  intro l pid h
  induction h with
  | nil => exact List.nodup_nil
  | cons hc hrec ih =>
      rename_i c l'
      refine List.nodup_cons.mpr ⟨?_, ih⟩
      intro hmem
      obtain ⟨l1, l2, heq⟩ := List.append_of_mem hmem
      have h1 : Calls cats (c :: l2) (some c.id) :=
        calls_suffix hrec l1 c l2 heq
      have h2 : Calls cats (c :: l') (some c.id) := Calls.cons hc hrec
      have hl2 := calls_unique hnodup h2 h1
      simp only [List.cons.injEq, true_and] at hl2
      rw [← hl2] at heq
      have hlen := congrArg List.length heq
      simp only [List.length_append, List.length_cons] at hlen
      omega

/-- A call chain is no longer than the store. -/
theorem calls_length_le {cats : List Cat}
    (hnodup : (cats.map (fun c => c.id)).Nodup)
    {l : List Cat} {pid : Option Nat} (h : Calls cats l pid) :
    l.length ≤ cats.length :=
  (List.subperm_of_subset (calls_nodup hnodup h)
    (fun _ hx => calls_subset h _ hx)).length_le

/-- The recursion budget is irrelevant once it exceeds the maximal possible
call-chain length: `buildTree`'s recursion terminates within depth
`cats.length + 1`. -/
theorem buildTreeFuel_stable {cats : List Cat}
    (hnodup : (cats.map (fun c => c.id)).Nodup) :
    ∀ (fuel₁ : Nat) (fuel₂ : Nat) (l : List Cat) (pid : Option Nat),
      Calls cats l pid →
      cats.length - l.length < fuel₁ →
      cats.length - l.length < fuel₂ →
      buildTreeFuel fuel₁ cats pid = buildTreeFuel fuel₂ cats pid := by
  intro fuel₁
  induction fuel₁ with
  | zero =>
      intro fuel₂ l pid _ h1 _
      omega
  | succ f ih =>
      intro fuel₂ l pid hc h1 h2
      cases fuel₂ with
      | zero => omega
      | succ g =>
          simp only [buildTreeFuel]
          refine List.map_congr_left (fun c hcf => ?_)
          have hcmem : c ∈ cats := (List.mem_filter.mp hcf).1
          have hcp : c.parent = pid := by
            have hb := (List.mem_filter.mp hcf).2
            simpa using hb
          have hchain : Calls cats (c :: l) (some c.id) :=
            Calls.cons hcmem (hcp ▸ hc)
          have hbound : (c :: l).length ≤ cats.length :=
            calls_length_le hnodup hchain
          simp only [List.length_cons] at hbound
          have hrec := ih g (c :: l) (some c.id) hchain
            (by simp only [List.length_cons]; omega)
            (by simp only [List.length_cons]; omega)
          rw [hrec]

/-- Membership in the collected ids of a node list: the id of one of the
nodes, or an id occurring among some node's children. -/
theorem mem_treeIds (i : Nat) :
    ∀ ns : List CNode,
      i ∈ treeIds ns ↔ ∃ n ∈ ns, i = CNode.nid n ∨ i ∈ treeIds (CNode.children n)
  | [] => by simp [treeIds]
  | (CNode.mk j nm sl ds im cs) :: tl => by
      simp only [treeIds, List.mem_cons, List.mem_append]
      constructor
      · rintro (h | h | h)
        · exact ⟨.mk j nm sl ds im cs, Or.inl rfl, Or.inl h⟩
        · exact ⟨.mk j nm sl ds im cs, Or.inl rfl, Or.inr h⟩
        · obtain ⟨n, hn, hh⟩ := (mem_treeIds i tl).mp h
          exact ⟨n, Or.inr hn, hh⟩
      · rintro ⟨n, hn | hn, hh⟩
        · subst hn
          rcases hh with rfl | hh
          · exact Or.inl rfl
          · exact Or.inr (Or.inl hh)
        · exact Or.inr (Or.inr ((mem_treeIds i tl).mpr ⟨n, hn, hh⟩))

/-- A reachable category is in the store. -/
theorem reach_mem_cats {cats : List Cat} {c : Cat} (h : Reach cats c) :
    c ∈ cats := by
  cases h with
  | root hc _ => exact hc
  | child hc _ _ => exact hc

/-- Every id occurring in the tree built from a root-or-reachable call
belongs to a reachable category: `buildTree` can only ever visit
categories reachable from a null-parent root. -/
theorem treeIds_reachable {cats : List Cat} :
    ∀ (fuel : Nat) (pid : Option Nat),
      (pid = none ∨ ∃ p, Reach cats p ∧ pid = some p.id) →
      ∀ i ∈ treeIds (buildTreeFuel fuel cats pid),
        ∃ c, Reach cats c ∧ c.id = i := by
  intro fuel
  induction fuel with
  | zero =>
      intro pid _ i hi
      simp [buildTreeFuel, treeIds] at hi
  | succ f ih =>
      intro pid hpid i hi
      rw [buildTreeFuel] at hi
      obtain ⟨n, hn, hh⟩ := (mem_treeIds i _).mp hi
      obtain ⟨c, hcf, rfl⟩ := List.mem_map.mp hn
      have hcmem : c ∈ cats := (List.mem_filter.mp hcf).1
      have hcp : c.parent = pid := by
        have hb := (List.mem_filter.mp hcf).2
        simpa using hb
      have hreach : Reach cats c := by
        rcases hpid with rfl | ⟨p, hp, rfl⟩
        · exact Reach.root hcmem hcp
        · exact Reach.child hcmem hcp hp
      rcases hh with rfl | hh
      · exact ⟨c, hreach, rfl⟩
      · exact ih (some c.id) (Or.inr ⟨c, hreach, rfl⟩) i hh

/-- At any reachable call, the stabilised tree builder satisfies the
unguarded recursion equation of the JS `buildTree`: the produced nodes are
exactly the projections of the categories whose parent pointer matches,
each with the full subtree of its own id as children. -/
theorem buildTree_unfold {cats : List Cat}
    (hnodup : (cats.map (fun c => c.id)).Nodup) :
    ∀ (l : List Cat) (pid : Option Nat), Calls cats l pid →
      buildTreeFuel (cats.length + 1) cats pid
        = (cats.filter (fun c => c.parent == pid)).map (fun c =>
            CNode.mk c.id c.name c.slug c.description c.image
              (buildTreeFuel (cats.length + 1) cats (some c.id))) := by
  intro l pid hcall
  conv_lhs => rw [buildTreeFuel]
  refine List.map_congr_left (fun c hcf => ?_)
  have hcmem : c ∈ cats := (List.mem_filter.mp hcf).1
  have hcp : c.parent = pid := by
    have hb := (List.mem_filter.mp hcf).2
    simpa using hb
  have hchain : Calls cats (c :: l) (some c.id) :=
    Calls.cons hcmem (hcp ▸ hcall)
  have hbound : (c :: l).length ≤ cats.length :=
    calls_length_le hnodup hchain
  simp only [List.length_cons] at hbound
  have hrec := buildTreeFuel_stable hnodup cats.length (cats.length + 1)
    (c :: l) (some c.id) hchain
    (by simp only [List.length_cons]; omega)
    (by simp only [List.length_cons]; omega)
  rw [hrec]

/-- A reachable category heads some call chain. -/
theorem reach_calls {cats : List Cat} {c : Cat} (h : Reach cats c) :
    ∃ l, Calls cats (c :: l) (some c.id) := by
  induction h with
  | root hc hp => exact ⟨[], Calls.cons hc (hp ▸ Calls.nil)⟩
  | child hc hp _ ih =>
      obtain ⟨l, hl⟩ := ih
      exact ⟨_, Calls.cons hc (hp ▸ hl)⟩

/-- Ids occurring in the subtree of any reachable call occur in the full
tree. -/
theorem calls_treeIds_subset {cats : List Cat}
    (hnodup : (cats.map (fun c => c.id)).Nodup) :
    ∀ {l : List Cat} {pid : Option Nat}, Calls cats l pid →
      ∀ i ∈ treeIds (buildTreeFuel (cats.length + 1) cats pid),
        i ∈ treeIds (buildTree cats) := by
  intro l pid h
  induction h with
  | nil => exact fun i hi => hi
  | cons hc hrec ih =>
      rename_i c m
      intro i hi
      refine ih i ?_
      rw [buildTree_unfold hnodup m c.parent hrec]
      refine (mem_treeIds i _).mpr ?_
      refine ⟨CNode.mk c.id c.name c.slug c.description c.image
        (buildTreeFuel (cats.length + 1) cats (some c.id)), ?_, Or.inr hi⟩
      exact List.mem_map.mpr ⟨c, List.mem_filter.mpr ⟨hc, by simp⟩, rfl⟩

/-- Every reachable category's id occurs in the built tree. -/
theorem reach_mem_treeIds {cats : List Cat}
    (hnodup : (cats.map (fun c => c.id)).Nodup) {c : Cat}
    (h : Reach cats c) : c.id ∈ treeIds (buildTree cats) := by
  obtain ⟨l, hl⟩ := reach_calls h
  obtain ⟨c', l', heq, hid, hc', hrec'⟩ := calls_some_inv hl
  have hc'c : c' = c := (List.cons.inj heq).1.symm
  have hl'l : l' = l := (List.cons.inj heq).2.symm
  rw [hc'c, hl'l] at hrec'
  rw [hc'c] at hc'
  refine calls_treeIds_subset hnodup hrec' c.id ?_
  rw [buildTree_unfold hnodup l c.parent hrec']
  refine (mem_treeIds c.id _).mpr ?_
  refine ⟨CNode.mk c.id c.name c.slug c.description c.image
    (buildTreeFuel (cats.length + 1) cats (some c.id)), ?_, Or.inl rfl⟩
  exact List.mem_map.mpr ⟨c, List.mem_filter.mpr ⟨hc', by simp⟩, rfl⟩

/-- **C2.** For every stored set of categories with distinct ids —
including ones whose `parentCategory` pointers form cycles — `buildTree`
terminates: a recursion budget of `cats.length + 1` is never exhausted,
and every larger budget computes the same tree.  Categories unreachable
from a null-parent root (orphaned cycle members among them) are simply
absent from the returned tree. -/
theorem claim_C2_buildTree_terminates (cats : List Cat)
    (hnodup : (cats.map (fun c => c.id)).Nodup) :
    (∀ fuel, cats.length + 1 ≤ fuel →
      buildTreeFuel fuel cats none = buildTree cats)
    ∧ (∀ c ∈ cats, ¬ Reach cats c → c.id ∉ treeIds (buildTree cats)) := by
  constructor
  · intro fuel hf
    exact buildTreeFuel_stable hnodup fuel (cats.length + 1) [] none Calls.nil
      (by simp only [List.length_nil]; omega)
      (by simp only [List.length_nil]; omega)
  · intro c hc hnr hmem
    have hmem' : c.id ∈ treeIds (buildTreeFuel (cats.length + 1) cats none) :=
      hmem
    obtain ⟨c', hr', hid⟩ :=
      treeIds_reachable (cats.length + 1) none (Or.inl rfl) c.id hmem'
    have hcc : c' = c :=
      List.inj_on_of_nodup_map hnodup (reach_mem_cats hr') hc hid
    exact hnr (hcc ▸ hr')

/-- Witness for C2 on a store holding a self-parenting cycle (category 1
is its own parent) next to a root: the tree stabilises at any budget and
the cycle member is absent from it. -/
theorem claim_C2_witness :
    buildTreeFuel 100
        [⟨1, some 1, "x", "x", "", "", true⟩, ⟨2, none, "r", "r", "", "", true⟩]
        none
      = buildTree
        [⟨1, some 1, "x", "x", "", "", true⟩, ⟨2, none, "r", "r", "", "", true⟩]
    ∧ (1 : Nat) ∉ treeIds (buildTree
        [⟨1, some 1, "x", "x", "", "", true⟩, ⟨2, none, "r", "r", "", "", true⟩]) := by
  have h := claim_C2_buildTree_terminates
    [⟨1, some 1, "x", "x", "", "", true⟩, ⟨2, none, "r", "r", "", "", true⟩]
    (by decide)
  refine ⟨h.1 100 (by decide), h.2 ⟨1, some 1, "x", "x", "", "", true⟩
    (List.mem_cons_self _ _) ?_⟩
  intro hr
  have key : ∀ d, Reach
      [⟨1, some 1, "x", "x", "", "", true⟩, ⟨2, none, "r", "r", "", "", true⟩] d →
      d.id ≠ 1 := by
    intro d hd
    induction hd with
    | root hcm hp =>
        simp only [List.mem_cons, List.not_mem_nil, or_false] at hcm
        rcases hcm with rfl | rfl
        · exact absurd hp (by decide)
        · decide
    | child hcm hp _ ih =>
        simp only [List.mem_cons, List.not_mem_nil, or_false] at hcm
        rcases hcm with rfl | rfl
        · exact fun _ => ih (Option.some.inj hp).symm
        · exact absurd hp (by simp)
  exact key _ hr rfl

/-- **C9.** With distinct ids, the built tree satisfies the spec's
recursive partition exactly: at the root call and at every reachable call,
the produced nodes are the projections (id, name, slug, description,
image) of precisely the categories whose parent pointer matches, each
carrying as children the tree of its own id; and the ids in the tree are
exactly the ids of the categories reachable from a null-parent root. -/
theorem claim_C9_buildTree_structure (cats : List Cat)
    (hnodup : (cats.map (fun c => c.id)).Nodup) :
    (∀ (l : List Cat) (pid : Option Nat), Calls cats l pid →
      buildTreeFuel (cats.length + 1) cats pid
        = (cats.filter (fun c => c.parent == pid)).map (fun c =>
            CNode.mk c.id c.name c.slug c.description c.image
              (buildTreeFuel (cats.length + 1) cats (some c.id))))
    ∧ (∀ c, Reach cats c → c.id ∈ treeIds (buildTree cats))
    ∧ (∀ i ∈ treeIds (buildTree cats), ∃ c, Reach cats c ∧ c.id = i) := by
  refine ⟨buildTree_unfold hnodup,
    fun c h => reach_mem_treeIds hnodup h, fun i hi => ?_⟩
  have hi' : i ∈ treeIds (buildTreeFuel (cats.length + 1) cats none) := hi
  exact treeIds_reachable (cats.length + 1) none (Or.inl rfl) i hi'

/-- Witness for C9 on the spec §8 store {A(root), B(parent=A),
C(parent=B), D(root)}: two roots A and D, with A→B→C nested, and the root
call satisfies the partition equation. -/
theorem claim_C9_witness :
    buildTree [⟨1, none, "a", "a", "", "", true⟩,
        ⟨2, some 1, "b", "b", "", "", true⟩,
        ⟨3, some 2, "c", "c", "", "", true⟩,
        ⟨4, none, "d", "d", "", "", true⟩]
      = [CNode.mk 1 "a" "a" "" ""
          [CNode.mk 2 "b" "b" "" "" [CNode.mk 3 "c" "c" "" "" []]],
         CNode.mk 4 "d" "d" "" "" []]
    ∧ buildTreeFuel 5 [⟨1, none, "a", "a", "", "", true⟩,
        ⟨2, some 1, "b", "b", "", "", true⟩,
        ⟨3, some 2, "c", "c", "", "", true⟩,
        ⟨4, none, "d", "d", "", "", true⟩] none
      = (([⟨1, none, "a", "a", "", "", true⟩,
          ⟨2, some 1, "b", "b", "", "", true⟩,
          ⟨3, some 2, "c", "c", "", "", true⟩,
          ⟨4, none, "d", "d", "", "", true⟩] : List Cat).filter
            (fun c => c.parent == none)).map (fun c =>
          CNode.mk c.id c.name c.slug c.description c.image
            (buildTreeFuel 5 [⟨1, none, "a", "a", "", "", true⟩,
              ⟨2, some 1, "b", "b", "", "", true⟩,
              ⟨3, some 2, "c", "c", "", "", true⟩,
              ⟨4, none, "d", "d", "", "", true⟩] (some c.id))) := by
  refine ⟨by rfl, ?_⟩
  exact (claim_C9_buildTree_structure
    [⟨1, none, "a", "a", "", "", true⟩, ⟨2, some 1, "b", "b", "", "", true⟩,
     ⟨3, some 2, "c", "c", "", "", true⟩, ⟨4, none, "d", "d", "", "", true⟩]
    (by decide)).1 [] none Calls.nil
